import Mathlib

set_option maxRecDepth 2000

/-!
Verification of the incremental turn processor of the baby-games repository
(`src/App.tsx` `processStream` / `handleSendMessage` and the audio service in
`src/unnamed/part_003`: `playTTS`, `stopAudio`, `getAudioEndTime`,
`decodeAudioData`).

Strings are modelled as `List Char` (JavaScript strings at the code-point
level; every character manipulated by this program is a single UTF-16 code
unit that is also a single code point).  Device-clock times and buffer
durations are modelled as rationals.
-/

namespace BabyGames

/-- JavaScript `\s` / `trim` whitespace class (ECMA-262 WhiteSpace and
LineTerminator code points). -/
def jsWS (c : Char) : Bool :=
  c.val = 0x9 ∨ c.val = 0xA ∨ c.val = 0xB ∨ c.val = 0xC ∨ c.val = 0xD ∨
  c.val = 0x20 ∨ c.val = 0xA0 ∨ c.val = 0x1680 ∨
  (0x2000 ≤ c.val ∧ c.val ≤ 0x200A) ∨
  c.val = 0x2028 ∨ c.val = 0x2029 ∨ c.val = 0x202F ∨ c.val = 0x205F ∨
  c.val = 0x3000 ∨ c.val = 0xFEFF

/-- JavaScript line terminators: the code points `.` does not match. -/
def lineTerm (c : Char) : Bool :=
  c.val = 0xA ∨ c.val = 0xD ∨ c.val = 0x2028 ∨ c.val = 0x2029

/-- JavaScript `String.prototype.trimStart`. -/
def trimStart (s : List Char) : List Char := s.dropWhile jsWS

/-- JavaScript `String.prototype.trimEnd`. -/
def trimEnd (s : List Char) : List Char := (s.reverse.dropWhile jsWS).reverse

/-- JavaScript `String.prototype.trim`. -/
def trim (s : List Char) : List Char := trimEnd (trimStart s)

/-- Remove every whitespace character; used to compare texts up to
whitespace. -/
def stripWS (s : List Char) : List Char := s.filter (fun c => !(jsWS c))

/-- JavaScript `String.prototype.includes` for a fixed search string. -/
def containsB (pat : List Char) : List Char → Bool
  | [] => pat.isPrefixOf ([] : List Char)
  | c :: cs => pat.isPrefixOf (c :: cs) || containsB pat cs

/-- JavaScript `String.prototype.replace` with a plain-string pattern:
replace only the first (leftmost) occurrence. -/
def listReplaceFirst (pat rep : List Char) : List Char → List Char
  | [] => if pat = [] then rep else []
  | c :: cs =>
    if pat.isPrefixOf (c :: cs) then rep ++ (c :: cs).drop pat.length
    else c :: listReplaceFirst pat rep cs

/-- The `[CORRECT]` directive marker. -/
def correctTag : List Char := "[CORRECT]".toList

/-- The opening of an `[IMAGE: ...]` directive marker. -/
def imageOpen : List Char := "[IMAGE:".toList

/-- Scan for the closing bracket of an image tag: the lazy `(.*?)\]` part of
the regex `/\[IMAGE:\s*(.*?)\]/`.  Succeeds at the first `]`, fails on a
line terminator (which `.` cannot match) or end of input.  Returns the
matched payload and the text after the `]`. -/
def scanToBracket : List Char → Option (List Char × List Char)
  | [] => none
  | c :: cs =>
    if c = ']' then some ([], cs)
    else if lineTerm c then none
    else (scanToBracket cs).map (fun p => (c :: p.1, p.2))

/-- Match the part of `/\[IMAGE:\s*(.*?)\]/` after the literal `[IMAGE:`:
a greedy whitespace run, then the lazy payload up to the first `]`.
Returns (whitespace run, captured payload, rest after the tag). -/
def imageAfter (s : List Char) : Option (List Char × List Char × List Char) :=
  (scanToBracket (s.dropWhile jsWS)).map (fun p => (s.takeWhile jsWS, p.1, p.2))

/-- Leftmost match of `/\[IMAGE:\s*(.*?)\]/` in `s`: returns
(text before the match, whitespace run, captured payload, text after the
match), or `none` when the regex does not match. -/
def imageSplit : List Char → Option (List Char × List Char × List Char × List Char)
  | [] => none
  | c :: cs =>
    if imageOpen.isPrefixOf (c :: cs) then
      match imageAfter ((c :: cs).drop imageOpen.length) with
      | some (ws, pay, rest) => some ([], ws, pay, rest)
      | none => (imageSplit cs).map (fun q => (c :: q.1, q.2.1, q.2.2.1, q.2.2.2))
    else (imageSplit cs).map (fun q => (c :: q.1, q.2.1, q.2.2.1, q.2.2.2))

/-- `s.replace(imageRegex, "")`: remove the first image-tag match, if any. -/
def stripImage (s : List Char) : List Char :=
  match imageSplit s with
  | some (pre, _, _, rest) => pre ++ rest
  | none => s

/-- The display text recomputed from the accumulated text in
`processStream` (App.tsx lines 80-109): strip the first image tag, then, if
`[CORRECT]` occurs, remove its first occurrence and trim leading
whitespace. -/
def displayOf (s : List Char) : List Char :=
  let s1 := stripImage s
  if containsB correctTag s1 then trimStart (listReplaceFirst correctTag [] s1) else s1

/-- Cleaning of a sentence for TTS (App.tsx lines 134-137 and 155-158):
`sentence.replace("[CORRECT]", "").replace(/\[IMAGE:.*?\]/, "").trim()`. -/
def ttsClean (s : List Char) : List Char :=
  trim (stripImage (listReplaceFirst correctTag [] s))

/-- The sentence-terminating delimiters of the regex `([。！？!?.])`. -/
def isDelim (c : Char) : Bool :=
  c = '。' || c = '！' || c = '？' || c = '!' || c = '?' || c = '.'

/-- Index of the last delimiter occurrence in the buffer (the
`delimiters.exec` loop of App.tsx lines 120-127). -/
def lastDelimIdx : List Char → Option Nat
  | [] => none
  | c :: cs =>
    match lastDelimIdx cs with
    | some i => some (i + 1)
    | none => if isDelim c then some 0 else none

/-- One feed of the sentence segmenter (App.tsx lines 118-131): append the
chunk to the buffer; if the buffer contains a delimiter, emit the prefix up
to and including the last delimiter and keep the remainder. -/
def feedSeg (buffer chunk : List Char) : Option (List Char) × List Char :=
  let b := buffer ++ chunk
  match lastDelimIdx b with
  | some i => (some (b.take (i + 1)), b.drop (i + 1))
  | none => (none, b)

/-- Per-turn state of `processStream` (App.tsx lines 60-71), together with
the observable outputs of the turn: the image-generation requests launched,
the raw sentence segments produced by the buffering logic, and the TTS
requests `(cleaned text, shouldInterrupt)` submitted to `playTTS`. -/
structure TurnState where
  fullText : List Char
  buffer : List Char
  isFirstSentence : Bool
  isCorrectFound : Bool
  imageTriggered : Bool
  imageRequests : List (List Char)
  rawSegments : List (List Char)
  ttsRequests : List (List Char × Bool)
deriving DecidableEq

/-- Initial per-turn state (App.tsx lines 64-68). -/
def initTurn : TurnState :=
  { fullText := [], buffer := [], isFirstSentence := true, isCorrectFound := false,
    imageTriggered := false, imageRequests := [], rawSegments := [], ttsRequests := [] }

/-- Directive handling of one loop iteration (App.tsx lines 77-116):
accumulate the chunk, fire the image-generation request at most once per
turn, record the correctness directive. -/
def dirStep (st : TurnState) (chunk : List Char) : TurnState :=
  let fullText := st.fullText ++ chunk
  let imgM := imageSplit fullText
  { st with
    fullText := fullText,
    imageTriggered := st.imageTriggered || imgM.isSome,
    imageRequests :=
      match imgM with
      | some q => if st.imageTriggered then st.imageRequests else st.imageRequests ++ [q.2.2.1]
      | none => st.imageRequests,
    isCorrectFound := st.isCorrectFound || containsB correctTag (stripImage fullText) }

/-- TTS buffering of one loop iteration (App.tsx lines 118-151): feed the
chunk to the segmenter; when a segment is emitted, clean it and submit it
as a TTS request if the cleaned text is non-empty. -/
def segStep (st : TurnState) (chunk : List Char) : TurnState :=
  match feedSeg st.buffer chunk with
  | (some seg, rest) =>
    let t := ttsClean seg
    if t.isEmpty then { st with buffer := rest, rawSegments := st.rawSegments ++ [seg] }
    else
      { st with buffer := rest, isFirstSentence := false,
                rawSegments := st.rawSegments ++ [seg],
                ttsRequests := st.ttsRequests ++ [(t, st.isFirstSentence)] }
  | (none, rest) => { st with buffer := rest }

/-- One iteration of the `for await (const chunk of stream)` body of
`processStream` (App.tsx lines 74-152), for a turn whose epoch stays
current: directive handling followed by TTS buffering. -/
def stepTurn (st : TurnState) (chunk : List Char) : TurnState :=
  segStep (dirStep st chunk) chunk

/-- Run the stream loop of `processStream` over a whole turn's increments. -/
def runTurnSteps (chunks : List (List Char)) : TurnState :=
  chunks.foldl stepTurn initTurn

/-- The final flush of `processStream` (App.tsx lines 154-168): clean the
remaining buffer and submit it as a last TTS request when non-empty. -/
def flushTTS (st : TurnState) : TurnState :=
  let t := ttsClean st.buffer
  if t.isEmpty then st
  else { st with ttsRequests := st.ttsRequests ++ [(t, st.isFirstSentence)] }

/-- A whole uninterrupted turn of `processStream`: the stream loop followed
by the final flush. -/
def runTurn (chunks : List (List Char)) : TurnState :=
  flushTTS (runTurnSteps chunks)

/-- Celebrations fired by `handleSendMessage` (App.tsx lines 272-276) for
one turn, given the turn's returned correctness outcome and whether a
celebration is already showing. -/
def celebrations (isCorrect alreadyShown : Bool) : Nat :=
  if isCorrect && !alreadyShown then 1 else 0

/-! ### Audio scheduling model (src/unnamed/part_003) -/

/-- Scheduling-relevant events of one turn, in the order the serialized
audio queue performs them.  `taskStart` is the head of one `playTTS`
processing task (part_003 lines 227-244): it resets the playback cursor to
device-now when the task interrupts or when the cursor fell behind the
clock.  `chunk` is the scheduling of one decoded audio chunk (lines
260-268): it starts the source at `max cursor now` and advances the cursor
by the chunk's duration. -/
inductive TurnEvent where
  | taskStart (interrupt : Bool) (now : ℚ)
  | chunk (now dur : ℚ)
deriving DecidableEq

/-- Effect of one event on the playback cursor, together with the
scheduled audio unit `(start, duration)` it creates, if any. -/
def stepCursor (cur : ℚ) : TurnEvent → ℚ × Option (ℚ × ℚ)
  | .taskStart intr now => (if intr || cur < now then now else cur, none)
  | .chunk now dur => (max cur now + dur, some (max cur now, dur))

/-- Run a sequence of scheduling events from a given cursor, returning the
final cursor and the scheduled audio units in creation order. -/
def runSched (cur : ℚ) : List TurnEvent → ℚ × List (ℚ × ℚ)
  | [] => (cur, [])
  | e :: es =>
    let c1 := (stepCursor cur e).1
    let r := runSched c1 es
    (r.1, ((stepCursor cur e).2).toList ++ r.2)

/-- The scheduled audio units produced by a sequence of events. -/
def scheduledUnits (cur : ℚ) (es : List TurnEvent) : List (ℚ × ℚ) :=
  (runSched cur es).2

/-- No interrupting `taskStart` occurs in the event list. -/
def noInterruptEv (es : List TurnEvent) : Bool :=
  es.all fun e => match e with
    | .taskStart true _ => false
    | _ => true

/-- A single uninterrupted turn: only the first `playTTS` call of a turn
carries `shouldInterrupt = true` (App.tsx lines 146, 165), and its task
head runs before any chunk of the turn is scheduled, so any interrupting
`taskStart` precedes every `chunk` event. -/
def okTurn : List TurnEvent → Bool
  | [] => true
  | .taskStart _ _ :: es => okTurn es
  | .chunk _ _ :: es => noInterruptEv es

/-- Global state of the audio service (part_003 lines 21-30): the TTS
epoch `latestTTSId`, the length of the promise chain `audioQueue`, the set
of active sources with their `(start, duration)`, the playback cursor
`nextStartTime`, and whether the `AudioContext` has been created. -/
structure ServiceState where
  epoch : ℕ
  queueLen : ℕ
  sources : List (ℚ × ℚ)
  cursor : ℚ
  ctx : Bool
deriving DecidableEq

/-- Initial audio-service state (module initialisation). -/
def initSvc : ServiceState :=
  { epoch := 0, queueLen := 0, sources := [], cursor := 0, ctx := false }

/-- `stopAudio` (part_003 lines 128-149): bump `latestTTSId`, reset the
queue to a resolved promise, stop and clear all active sources, and reset
the cursor to 0 when the `AudioContext` exists. -/
def stopAudio (s : ServiceState) : ServiceState :=
  { epoch := s.epoch + 1, queueLen := 0, sources := [],
    cursor := if s.ctx then 0 else s.cursor, ctx := s.ctx }

/-- `getAudioEndTime` (part_003 lines 151-154): 0 without an
`AudioContext`, else the playback cursor. -/
def getAudioEndTime (s : ServiceState) : ℚ := if s.ctx then s.cursor else 0

/-- State-mutating operations of the audio service: interruption, the head
of a `playTTS` task (which creates the `AudioContext` on demand and applies
the cursor-reset rule), the scheduling of one decoded chunk, the natural
completion of a source (`onended`), and queueing one more task on the
promise chain. -/
inductive SvcOp where
  | stop
  | beginTask (intr : Bool) (now : ℚ)
  | schedChunk (now dur : ℚ)
  | endSource (u : ℚ × ℚ)
  | enqueue

/-- Apply one operation to the service state.  `schedChunk` only ever runs
after its task's `beginTask` created the `AudioContext`, so it is a no-op
in the (unreachable) `ctx = false` case. -/
def applySvc (s : ServiceState) : SvcOp → ServiceState
  | .stop => stopAudio s
  | .beginTask intr now =>
    { s with ctx := true,
             cursor := if intr || s.cursor < now then now else s.cursor }
  | .schedChunk now dur =>
    if s.ctx then
      { s with cursor := max s.cursor now + dur,
               sources := s.sources ++ [(max s.cursor now, dur)] }
    else s
  | .endSource u => { s with sources := s.sources.erase u }
  | .enqueue => { s with queueLen := s.queueLen + 1 }

/-- The service state reached from start-up after a sequence of
operations. -/
def reachSvc (ops : List SvcOp) : ServiceState := ops.foldl applySvc initSvc

/-! ### One `playTTS` synthesis task under epoch bumps (part_003 lines 195-290) -/

/-- Externally visible effects of one `playTTS` processing task:
`unitChecks` lists, for each scheduled audio unit in order, the index of
the last epoch checkpoint passed right before the unit was created;
`onStartAt` is the checkpoint at which `onStart` was called, if it was. -/
structure TaskResult where
  unitChecks : List ℕ
  onStartAt : Option ℕ
deriving DecidableEq

/-- The chunk loop of a `playTTS` task (part_003 lines 250-279).  `myId` is
the epoch captured at submission; `latest k` is the value of `latestTTSId`
observed at the k-th suspension-point checkpoint (the checks are the only
reads).  Each chunk arrival is checkpoint `k`; when the chunk carries
audio, the post-decode check is checkpoint `k + 1`, after which the unit is
scheduled and, for the first audio chunk, `onStart` fires. -/
def runTaskGo (myId : ℕ) (latest : ℕ → ℕ) : List Bool → ℕ → Bool → TaskResult
  | [], _, _ => { unitChecks := [], onStartAt := none }
  | hasAudio :: rest, k, first =>
    if latest k ≠ myId then { unitChecks := [], onStartAt := none }
    else if hasAudio then
      if latest (k + 1) ≠ myId then { unitChecks := [], onStartAt := none }
      else
        let r := runTaskGo myId latest rest (k + 2) false
        { unitChecks := (k + 1) :: r.unitChecks,
          onStartAt := if first then some (k + 1) else r.onStartAt }
    else runTaskGo myId latest rest (k + 1) first

/-- One whole `playTTS` processing task: checkpoint 0 is the check at the
head of the queued task (line 229); then the chunk loop runs with
checkpoints 1, 2, ....  Chunks are flagged by whether they carry audio
data. -/
def runTask (myId : ℕ) (latest : ℕ → ℕ) (chunks : List Bool) : TaskResult :=
  if latest 0 ≠ myId then { unitChecks := [], onStartAt := none }
  else runTaskGo myId latest chunks 1 true

/-- Epoch trace that is bumped from 0 to 1 at checkpoint 3 (i.e. while the
task is awaiting its second chunk). -/
def bumpAt3 : ℕ → ℕ := fun k => if 3 ≤ k then 1 else 0

/-! ### End-of-turn speaking transition (App.tsx lines 170-187) -/

/-- The delay computed when all TTS scheduling promises of a turn settle:
`Math.max(0, (endTime - currentTime) * 1000) + 200` milliseconds. -/
def turnEndDelay (endTime now : ℚ) : ℚ := max 0 ((endTime - now) * 1000) + 200

/-- The `Promise.all(ttsPromises).then` handler: when the turn's epoch is
still current it schedules the speaking-off transition after
`turnEndDelay`; otherwise it schedules nothing. -/
def scheduleSpeakingOff (myId curId : ℕ) (endTime now : ℚ) : Option ℚ :=
  if myId = curId then some (turnEndDelay endTime now) else none

/-- The `setTimeout` callback: it clears the speaking flag only when the
turn's epoch is still current at firing time. -/
def speakingAfterTimeout (myId curId : ℕ) (speaking : Bool) : Bool :=
  if myId = curId then false else speaking

/-! ### PCM decoding (part_003 lines 171-188, identical in part_002) -/

/-- Reinterpret two consecutive bytes as one little-endian signed 16-bit
integer (`new Int16Array(data.buffer)`). -/
def toInt16 (lo hi : Fin 256) : ℤ :=
  if (lo : ℤ) + 256 * (hi : ℤ) < 32768 then (lo : ℤ) + 256 * (hi : ℤ)
  else (lo : ℤ) + 256 * (hi : ℤ) - 65536

/-- The `Int16Array` view of a byte buffer: consecutive byte pairs as
signed 16-bit integers (a trailing odd byte is not part of the view). -/
def pairUp : List (Fin 256) → List ℤ
  | lo :: hi :: rest => toInt16 lo hi :: pairUp rest
  | _ => []

/-- `decodeAudioData`: interpret the bytes as 16-bit signed PCM and write
each channel sample as the integer divided by 32768.0.  Returns one sample
list per channel. -/
def decodeAudioData (data : List (Fin 256)) (numChannels : ℕ) : List (List ℚ) :=
  let d16 := pairUp data
  let frameCount := d16.length / numChannels
  (List.range numChannels).map fun ch =>
    (List.range frameCount).map fun i =>
      ((d16.getD (i * numChannels + ch) 0 : ℤ) : ℚ) / 32768

/-- Concatenation of a list of texts. -/
def joinL : List (List Char) → List Char
  | [] => []
  | l :: ls => l ++ joinL ls

/-- The increments of Scenario A of the specification. -/
def scenarioChunks : List (List Char) :=
  ["今天".toList, "天气".toList, "真好。".toList, "你觉得".toList, "呢？".toList]

/-- A concrete uninterrupted-turn event trace used as a witness input. -/
def evC1 : List TurnEvent :=
  [.taskStart true 0, .chunk 1 2, .chunk 0 3]

/-- Marker-free increments used as witness input for the segmentation
round-trip. -/
def c3wChunks : List (List Char) := ["今天。".toList, " 好 ".toList]

/-- Increments whose accumulated text contains the `[CORRECT]` marker
twice, split across increments; used as witness input for C5. -/
def c5wChunks : List (List Char) := ["ab[CORRECT]".toList, "cd[CORRECT]ef".toList]

/-! ## Helper lemmas -/

theorem containsB_infix_iff (pat : List Char) (s : List Char) :
    containsB pat s = true ↔ pat <:+: s := by
  induction s with
  | nil => simp [containsB, List.isPrefixOf_iff_prefix]
  | cons c cs ih =>
    simp [containsB, List.isPrefixOf_iff_prefix, List.infix_cons_iff, ih]

theorem replaceFirst_of_not_contains (pat rep : List Char) (hp : pat ≠ []) :
    ∀ s, containsB pat s = false → listReplaceFirst pat rep s = s := by
  intro s
  induction s with
  | nil => intro _; simp [listReplaceFirst, hp]
  | cons c cs ih =>
    intro h
    simp only [containsB, Bool.or_eq_false_iff] at h
    simp [listReplaceFirst, h.1, ih h.2]

theorem scanToBracket_eq :
    ∀ l pay rest, scanToBracket l = some (pay, rest) → l = pay ++ ']' :: rest := by
  intro l
  induction l with
  | nil => intro pay rest h; simp [scanToBracket] at h
  | cons c cs ih =>
    intro pay rest h
    by_cases hc : c = ']'
    · subst hc
      simp [scanToBracket] at h
      simp [← h.1, ← h.2]
    · by_cases hl : lineTerm c = true
      · simp [scanToBracket, hc, hl] at h
      · simp only [scanToBracket, if_neg hc, hl, Bool.false_eq_true, if_false,
          Option.map_eq_some'] at h
        obtain ⟨⟨p1, p2⟩, hp, he⟩ := h
        obtain ⟨h1, h2⟩ := Prod.mk.injEq .. ▸ he
        subst h2
        rw [← h1, ih p1 p2 hp]
        simp

theorem imageAfter_eq (s ws pay rest : List Char)
    (h : imageAfter s = some (ws, pay, rest)) :
    s = ws ++ pay ++ ']' :: rest := by
  simp only [imageAfter, Option.map_eq_some'] at h
  obtain ⟨⟨p1, p2⟩, hp, he⟩ := h
  have h3 := scanToBracket_eq _ _ _ hp
  simp only [Prod.mk.injEq] at he
  obtain ⟨e1, e2, e3⟩ := he
  subst e1; subst e2; subst e3
  conv_lhs => rw [← List.takeWhile_append_dropWhile jsWS s]
  rw [h3]
  simp [List.append_assoc]

theorem imageSplit_eq :
    ∀ s pre ws pay rest, imageSplit s = some (pre, ws, pay, rest) →
      s = pre ++ imageOpen ++ ws ++ pay ++ ']' :: rest := by
  intro s
  induction s with
  | nil => intro pre ws pay rest h; simp [imageSplit] at h
  | cons c cs ih =>
    intro pre ws pay rest h
    by_cases hp : imageOpen.isPrefixOf (c :: cs)
    · obtain ⟨t, ht⟩ := List.isPrefixOf_iff_prefix.mp hp
      cases him : imageAfter ((c :: cs).drop imageOpen.length) with
      | some q =>
        obtain ⟨ws0, pay0, rest0⟩ := q
        simp only [imageSplit, hp, if_true, him, Option.some.injEq, Prod.mk.injEq] at h
        obtain ⟨e1, e2, e3, e4⟩ := h
        have hdrop : (c :: cs).drop imageOpen.length = t := by
          rw [← ht, List.drop_left]
        rw [hdrop] at him
        have hd := imageAfter_eq t ws0 pay0 rest0 him
        subst e1; subst e2; subst e3; subst e4
        rw [← ht, hd]
        simp [List.append_assoc]
      | none =>
        simp only [imageSplit, hp, if_true, him, Option.map_eq_some'] at h
        obtain ⟨⟨q1, q2, q3, q4⟩, hq, he⟩ := h
        simp only [Prod.mk.injEq] at he
        obtain ⟨e1, e2, e3, e4⟩ := he
        subst e1; subst e2; subst e3; subst e4
        have hd := ih q1 q2 q3 q4 hq
        rw [hd]
        simp [List.append_assoc]
    · have hp' : imageOpen.isPrefixOf (c :: cs) = false := by
        cases hb : imageOpen.isPrefixOf (c :: cs)
        · rfl
        · exact absurd hb hp
      simp only [imageSplit, hp', Bool.false_eq_true, if_false, Option.map_eq_some'] at h
      obtain ⟨⟨q1, q2, q3, q4⟩, hq, he⟩ := h
      simp only [Prod.mk.injEq] at he
      obtain ⟨e1, e2, e3, e4⟩ := he
      subst e1; subst e2; subst e3; subst e4
      have hd := ih q1 q2 q3 q4 hq
      rw [hd]
      simp [List.append_assoc]

theorem not_bracket_imageSplit (s : List Char) (h : '[' ∉ s) :
    imageSplit s = none := by
  cases hi : imageSplit s with
  | none => rfl
  | some q =>
    obtain ⟨pre, ws, pay, rest⟩ := q
    exfalso
    apply h
    rw [imageSplit_eq s pre ws pay rest hi]
    have : '[' ∈ imageOpen := by decide
    simp [this]

theorem not_bracket_contains (s : List Char) (h : '[' ∉ s) :
    containsB correctTag s = false := by
  by_contra hne
  have ht : containsB correctTag s = true := by
    cases hcb : containsB correctTag s
    · exact absurd hcb hne
    · rfl
  have hinf := Iff.mp (containsB_infix_iff correctTag s) ht
  have hmem : '[' ∈ correctTag := by decide
  exact h (hinf.sublist.subset hmem)

theorem stripImage_of_no_bracket (s : List Char) (h : '[' ∉ s) :
    stripImage s = s := by
  simp [stripImage, not_bracket_imageSplit s h]

theorem ttsClean_of_no_bracket (s : List Char) (h : '[' ∉ s) :
    ttsClean s = trim s := by
  have hc : containsB correctTag s = false := not_bracket_contains s h
  have h1 : listReplaceFirst correctTag [] s = s :=
    replaceFirst_of_not_contains correctTag [] (by decide) s hc
  rw [ttsClean, h1, stripImage_of_no_bracket s h]

theorem displayOf_of_no_bracket (s : List Char) (h : '[' ∉ s) :
    displayOf s = s := by
  rw [displayOf]
  simp [stripImage_of_no_bracket s h, not_bracket_contains s h]

theorem stripWS_dropWhile (s : List Char) :
    stripWS (s.dropWhile jsWS) = stripWS s := by
  induction s with
  | nil => rfl
  | cons c cs ih =>
    by_cases h : jsWS c
    · rw [List.dropWhile_cons, if_pos h, ih]
      simp [stripWS, List.filter_cons, h]
    · simp [List.dropWhile_cons, h]

theorem stripWS_trim (s : List Char) : stripWS (trim s) = stripWS s := by
  rw [trim, trimEnd, trimStart]
  rw [show stripWS (((s.dropWhile jsWS).reverse.dropWhile jsWS).reverse)
        = (stripWS ((s.dropWhile jsWS).reverse.dropWhile jsWS)).reverse from
      List.filter_reverse ..]
  rw [stripWS_dropWhile]
  rw [show stripWS ((s.dropWhile jsWS).reverse) = (stripWS (s.dropWhile jsWS)).reverse from
      List.filter_reverse ..]
  rw [List.reverse_reverse, stripWS_dropWhile]

theorem joinL_append : ∀ l1 l2 : List (List Char), joinL (l1 ++ l2) = joinL l1 ++ joinL l2 := by
  intro l1 l2
  induction l1 with
  | nil => rfl
  | cons x xs ih => simp [joinL, ih, List.append_assoc]

theorem joinL_eq_flatten : ∀ l : List (List Char), joinL l = l.flatten := by
  intro l
  induction l with
  | nil => rfl
  | cons x xs ih => simp [joinL, ih]

theorem feedSeg_some (b c seg rest : List Char) (h : feedSeg b c = (some seg, rest)) :
    seg ++ rest = b ++ c := by
  rw [feedSeg] at h
  cases hL : lastDelimIdx (b ++ c) with
  | some i =>
    rw [hL] at h
    simp only [Prod.mk.injEq, Option.some.injEq] at h
    rw [← h.1, ← h.2]
    exact List.take_append_drop _ _
  | none => rw [hL] at h; simp at h

theorem feedSeg_none (b c rest : List Char) (h : feedSeg b c = (none, rest)) :
    rest = b ++ c := by
  rw [feedSeg] at h
  cases hL : lastDelimIdx (b ++ c) with
  | some i => rw [hL] at h; simp at h
  | none =>
    rw [hL] at h
    simp only [Prod.mk.injEq] at h
    exact h.2.symm

theorem dirStep_fields (st : TurnState) (chunk : List Char) :
    (dirStep st chunk).fullText = st.fullText ++ chunk ∧
    (dirStep st chunk).buffer = st.buffer ∧
    (dirStep st chunk).rawSegments = st.rawSegments ∧
    (dirStep st chunk).isFirstSentence = st.isFirstSentence ∧
    (dirStep st chunk).ttsRequests = st.ttsRequests := by
  refine ⟨rfl, rfl, rfl, rfl, rfl⟩

theorem segStep_join (st : TurnState) (chunk X : List Char)
    (h : joinL st.rawSegments ++ st.buffer = X) :
    joinL (segStep st chunk).rawSegments ++ (segStep st chunk).buffer = X ++ chunk ∧
    (segStep st chunk).fullText = st.fullText := by
  rw [segStep]
  cases hf : feedSeg st.buffer chunk with
  | mk o rest =>
    cases o with
    | some seg =>
      have hsr : seg ++ rest = st.buffer ++ chunk := feedSeg_some _ _ _ _ hf
      have hone : joinL [seg] = seg := by simp [joinL]
      dsimp only
      by_cases he : (ttsClean seg).isEmpty
      · rw [if_pos he]
        refine ⟨?_, rfl⟩
        show joinL (st.rawSegments ++ [seg]) ++ rest = X ++ chunk
        rw [joinL_append, hone, List.append_assoc, hsr, ← List.append_assoc, h]
      · rw [if_neg he]
        refine ⟨?_, rfl⟩
        show joinL (st.rawSegments ++ [seg]) ++ rest = X ++ chunk
        rw [joinL_append, hone, List.append_assoc, hsr, ← List.append_assoc, h]
    | none =>
      have hr : rest = st.buffer ++ chunk := feedSeg_none _ _ _ hf
      dsimp only
      refine ⟨?_, rfl⟩
      show joinL st.rawSegments ++ rest = X ++ chunk
      rw [hr, ← List.append_assoc, h]

theorem stepTurn_join (st : TurnState) (chunk : List Char)
    (h : joinL st.rawSegments ++ st.buffer = st.fullText) :
    joinL (stepTurn st chunk).rawSegments ++ (stepTurn st chunk).buffer
      = (stepTurn st chunk).fullText ∧
    (stepTurn st chunk).fullText = st.fullText ++ chunk := by
  rw [stepTurn]
  have hd := dirStep_fields st chunk
  have h1 : joinL (dirStep st chunk).rawSegments ++ (dirStep st chunk).buffer
      = st.fullText := by rw [hd.2.1, hd.2.2.1, h]
  have h2 := segStep_join (dirStep st chunk) chunk st.fullText h1
  refine ⟨?_, ?_⟩
  · rw [h2.1, h2.2, hd.1]
  · rw [h2.2, hd.1]

theorem foldl_stepTurn_join :
    ∀ (chunks : List (List Char)) (st : TurnState),
      joinL st.rawSegments ++ st.buffer = st.fullText →
      joinL (chunks.foldl stepTurn st).rawSegments ++ (chunks.foldl stepTurn st).buffer
        = (chunks.foldl stepTurn st).fullText ∧
      (chunks.foldl stepTurn st).fullText = st.fullText ++ joinL chunks := by
  intro chunks
  induction chunks with
  | nil => intro st h; exact ⟨h, by simp [joinL]⟩
  | cons c cs ih =>
    intro st h
    rw [List.foldl_cons]
    have h1 := stepTurn_join st c h
    have h2 := ih (stepTurn st c) h1.1
    refine ⟨h2.1, ?_⟩
    rw [h2.2, h1.2]
    simp [joinL, List.append_assoc]

theorem runTurnSteps_join (chunks : List (List Char)) :
    joinL (runTurnSteps chunks).rawSegments ++ (runTurnSteps chunks).buffer = joinL chunks ∧
    (runTurnSteps chunks).fullText = joinL chunks := by
  have h := foldl_stepTurn_join chunks initTurn (by rfl)
  have h2 : (runTurnSteps chunks).fullText = joinL chunks := by
    rw [runTurnSteps, h.2]
    rfl
  exact ⟨by rw [runTurnSteps, h.1]; exact h2, h2⟩

theorem stripWS_append (a b : List Char) : stripWS (a ++ b) = stripWS a ++ stripWS b :=
  List.filter_append ..

theorem stripWS_joinL_clean (segs : List (List Char)) (h : ∀ l ∈ segs, '[' ∉ l) :
    stripWS (joinL (segs.map ttsClean)) = stripWS (joinL segs) := by
  induction segs with
  | nil => rfl
  | cons l ls ih =>
    have hl : '[' ∉ l := h l (List.mem_cons_self l ls)
    have hls : ∀ x ∈ ls, '[' ∉ x := fun x hx => h x (List.mem_cons_of_mem l hx)
    show stripWS (ttsClean l ++ joinL (ls.map ttsClean)) = stripWS (l ++ joinL ls)
    rw [stripWS_append, stripWS_append, ttsClean_of_no_bracket l hl, stripWS_trim, ih hls]

/-- Claim C3: for every sequence of token increments, the raw sentence
segments emitted by the buffering logic plus the remaining buffer
concatenate exactly to the accumulated text (lossless partition); and on
non-marker content (no `[` in the turn), concatenating the cleaned TTS
texts plus the final flush equals the cleaned accumulated display text up
to trimmed whitespace. -/
theorem c3_segments_lossless (chunks : List (List Char)) :
    joinL (runTurnSteps chunks).rawSegments ++ (runTurnSteps chunks).buffer
      = joinL chunks ∧
    ('[' ∉ joinL chunks →
      stripWS (joinL ((runTurnSteps chunks).rawSegments.map ttsClean)
          ++ ttsClean (runTurnSteps chunks).buffer)
        = stripWS (displayOf (joinL chunks))) := by
  have hj := runTurnSteps_join chunks
  refine ⟨hj.1, ?_⟩
  intro hnb
  have hsegs : ∀ l ∈ (runTurnSteps chunks).rawSegments, '[' ∉ l := by
    intro l hl hmem
    apply hnb
    rw [← hj.1]
    apply List.mem_append_left
    rw [joinL_eq_flatten]
    exact List.mem_flatten.mpr ⟨l, hl, hmem⟩
  have hbuf : '[' ∉ (runTurnSteps chunks).buffer := by
    intro hmem
    apply hnb
    rw [← hj.1]
    exact List.mem_append_right _ hmem
  rw [displayOf_of_no_bracket _ hnb]
  rw [stripWS_append, stripWS_joinL_clean _ hsegs, ttsClean_of_no_bracket _ hbuf,
    stripWS_trim, ← hj.1, stripWS_append]

/-- Witness for C3 at a concrete marker-free turn. -/
theorem c3_witness :
    joinL (runTurnSteps c3wChunks).rawSegments ++ (runTurnSteps c3wChunks).buffer
      = joinL c3wChunks ∧
    stripWS (joinL ((runTurnSteps c3wChunks).rawSegments.map ttsClean)
        ++ ttsClean (runTurnSteps c3wChunks).buffer)
      = stripWS (displayOf (joinL c3wChunks)) :=
  ⟨(c3_segments_lossless c3wChunks).1, (c3_segments_lossless c3wChunks).2 (by decide)⟩

/-! ## Claim C4 -/

theorem lastDelimIdx_none : ∀ s, lastDelimIdx s = none → ∀ x ∈ s, isDelim x = false := by
  intro s
  induction s with
  | nil => intro _ x hx; simp at hx
  | cons c cs ih =>
    intro h x hx
    rw [lastDelimIdx] at h
    cases hcs : lastDelimIdx cs with
    | some i => rw [hcs] at h; simp at h
    | none =>
      rw [hcs] at h
      by_cases hc : isDelim c
      · rw [if_pos hc] at h; simp at h
      · rcases List.mem_cons.mp hx with rfl | hx'
        · cases hd : isDelim x
          · rfl
          · exact absurd hd hc
        · exact ih hcs x hx'

theorem lastDelimIdx_some : ∀ s i, lastDelimIdx s = some i →
    ∃ u d v, s = u ++ d :: v ∧ u.length = i ∧ isDelim d = true ∧
      ∀ x ∈ v, isDelim x = false := by
  intro s
  induction s with
  | nil => intro i h; simp [lastDelimIdx] at h
  | cons c cs ih =>
    intro i h
    rw [lastDelimIdx] at h
    cases hcs : lastDelimIdx cs with
    | some j =>
      rw [hcs] at h
      simp only [Option.some.injEq] at h
      obtain ⟨u, d, v, he, hlen, hdel, hv⟩ := ih j hcs
      exact ⟨c :: u, d, v, by rw [he]; rfl, by simp [hlen, ← h], hdel, hv⟩
    | none =>
      rw [hcs] at h
      by_cases hc : isDelim c
      · rw [if_pos hc] at h
        simp only [Option.some.injEq] at h
        exact ⟨[], c, cs, rfl, by simp [← h], hc, lastDelimIdx_none cs hcs⟩
      · rw [if_neg hc] at h; simp at h

/-- Claim C4 (amended): on each feed, if the combined buffer contains a
sentence delimiter, exactly one segment is emitted consisting of the buffer
up to and including the last delimiter occurrence (so the remainder has no
delimiter), else nothing is emitted; at stream end the cleaned remainder is
flushed as a final TTS request exactly when non-empty.  For Scenario A's
increments the two texts are both emitted as segments — the second by the
fifth feed, because `？` is itself a delimiter — and the final flush emits
nothing. -/
theorem c4_amended :
    (∀ buffer chunk seg rest, feedSeg buffer chunk = (some seg, rest) →
      buffer ++ chunk = seg ++ rest ∧ seg ≠ [] ∧
      (∃ d, seg.getLast? = some d ∧ isDelim d = true) ∧
      (∀ x ∈ rest, isDelim x = false)) ∧
    (∀ buffer chunk rest, feedSeg buffer chunk = (none, rest) →
      rest = buffer ++ chunk ∧ ∀ x ∈ rest, isDelim x = false) ∧
    (∀ st : TurnState, (flushTTS st).ttsRequests
      = st.ttsRequests ++ (if (ttsClean st.buffer).isEmpty then []
          else [(ttsClean st.buffer, st.isFirstSentence)])) ∧
    ((runTurnSteps scenarioChunks).rawSegments
        = ["今天天气真好。".toList, "你觉得呢？".toList] ∧
      (runTurnSteps scenarioChunks).buffer = [] ∧
      (runTurn scenarioChunks).ttsRequests
        = [("今天天气真好。".toList, true), ("你觉得呢？".toList, false)]) := by
  refine ⟨?_, ?_, ?_, by decide⟩
  · intro b c seg rest h
    rw [feedSeg] at h
    cases hL : lastDelimIdx (b ++ c) with
    | some i =>
      rw [hL] at h
      simp only [Prod.mk.injEq, Option.some.injEq] at h
      obtain ⟨u, d, v, he, hlen, hdel, hv⟩ := lastDelimIdx_some (b ++ c) i hL
      have he2 : b ++ c = (u ++ [d]) ++ v := by rw [he]; simp
      have hlen2 : (u ++ [d]).length = i + 1 := by simp [hlen]
      have hseg : seg = u ++ [d] := by
        rw [← h.1, he2, ← hlen2, List.take_left]
      have hrest : rest = v := by
        rw [← h.2, he2, ← hlen2, List.drop_left]
      refine ⟨?_, ?_, ⟨d, ?_, hdel⟩, ?_⟩
      · rw [hseg, hrest, he2]
      · rw [hseg]; simp
      · rw [hseg]; exact List.getLast?_concat u
      · rw [hrest]; exact hv
    | none => rw [hL] at h; simp at h
  · intro b c rest h
    rw [feedSeg] at h
    cases hL : lastDelimIdx (b ++ c) with
    | some i => rw [hL] at h; simp at h
    | none =>
      rw [hL] at h
      simp only [Prod.mk.injEq] at h
      exact ⟨h.2.symm, by rw [← h.2]; exact lastDelimIdx_none _ hL⟩
  · intro st
    rw [flushTTS]
    by_cases he : (ttsClean st.buffer).isEmpty
    · rw [if_pos he, if_pos he]; simp
    · rw [if_neg he, if_neg he]

/-- Witness for the amended C4 at a concrete feed. -/
theorem c4_amended_witness :
    ([] : List Char) ++ "a。b".toList = "a。".toList ++ "b".toList ∧
    "a。".toList ≠ [] ∧
    (∃ d, ("a。".toList).getLast? = some d ∧ isDelim d = true) ∧
    (∀ x ∈ "b".toList, isDelim x = false) :=
  c4_amended.1 [] "a。b".toList "a。".toList "b".toList (by decide)

/-- Claim C4's scenario, as stated, is false: after the five increments the
buffer is empty, so the final flush emits nothing; `你觉得呢？` was emitted
as a regular segment by the fifth feed. -/
theorem c4_counterexample :
    ttsClean ((runTurnSteps scenarioChunks).buffer) = [] ∧
    (runTurn scenarioChunks).ttsRequests = (runTurnSteps scenarioChunks).ttsRequests ∧
    (runTurnSteps scenarioChunks).ttsRequests
      = [("今天天气真好。".toList, true), ("你觉得呢？".toList, false)] := by decide

/-! ## Claim C5 -/

theorem segStep_image (st : TurnState) (chunk : List Char) :
    (segStep st chunk).imageTriggered = st.imageTriggered ∧
    (segStep st chunk).imageRequests = st.imageRequests ∧
    (segStep st chunk).isCorrectFound = st.isCorrectFound := by
  rw [segStep]
  cases hf : feedSeg st.buffer chunk with
  | mk o rest =>
    cases o with
    | some seg =>
      dsimp only
      by_cases he : (ttsClean seg).isEmpty
      · rw [if_pos he]; exact ⟨rfl, rfl, rfl⟩
      · rw [if_neg he]; exact ⟨rfl, rfl, rfl⟩
    | none => exact ⟨rfl, rfl, rfl⟩

theorem dirStep_image (st : TurnState) (chunk : List Char)
    (h0 : st.imageTriggered = false → st.imageRequests = [])
    (h1 : st.imageRequests.length ≤ 1) :
    ((dirStep st chunk).imageTriggered = false → (dirStep st chunk).imageRequests = []) ∧
    (dirStep st chunk).imageRequests.length ≤ 1 := by
  rw [dirStep]
  cases him : imageSplit (st.fullText ++ chunk) with
  | none =>
    dsimp only
    exact ⟨fun h => h0 (by simpa using h), h1⟩
  | some q =>
    dsimp only
    constructor
    · intro h
      simp at h
    · cases ht : st.imageTriggered
      · rw [if_neg Bool.false_ne_true, h0 ht]
        simp
      · rw [if_pos rfl]
        exact h1

theorem foldl_stepTurn_image :
    ∀ (chunks : List (List Char)) (st : TurnState),
      (st.imageTriggered = false → st.imageRequests = []) →
      st.imageRequests.length ≤ 1 →
      ((chunks.foldl stepTurn st).imageTriggered = false →
          (chunks.foldl stepTurn st).imageRequests = []) ∧
      (chunks.foldl stepTurn st).imageRequests.length ≤ 1 := by
  intro chunks
  induction chunks with
  | nil => intro st h0 h1; exact ⟨h0, h1⟩
  | cons c cs ih =>
    intro st h0 h1
    rw [List.foldl_cons]
    have hd := dirStep_image st c h0 h1
    have hs := segStep_image (dirStep st c) c
    refine ih (stepTurn st c) ?_ ?_
    · rw [stepTurn, hs.1, hs.2.1]
      exact hd.1
    · rw [stepTurn, hs.2.1]
      exact hd.2

theorem flushTTS_fields (st : TurnState) :
    (flushTTS st).imageRequests = st.imageRequests ∧
    (flushTTS st).isCorrectFound = st.isCorrectFound ∧
    (flushTTS st).rawSegments = st.rawSegments ∧
    (flushTTS st).buffer = st.buffer := by
  rw [flushTTS]
  by_cases he : (ttsClean st.buffer).isEmpty
  · rw [if_pos he]; exact ⟨rfl, rfl, rfl, rfl⟩
  · rw [if_neg he]; exact ⟨rfl, rfl, rfl, rfl⟩

theorem scanToBracket_no_rb :
    ∀ l pay rest, scanToBracket l = some (pay, rest) → ']' ∉ pay := by
  intro l
  induction l with
  | nil => intro pay rest h; simp [scanToBracket] at h
  | cons c cs ih =>
    intro pay rest h
    by_cases hc : c = ']'
    · subst hc
      simp [scanToBracket] at h
      rw [h.1]
      simp
    · by_cases hl : lineTerm c = true
      · simp [scanToBracket, hc, hl] at h
      · simp only [scanToBracket, if_neg hc, hl, Bool.false_eq_true, if_false,
          Option.map_eq_some'] at h
        obtain ⟨⟨p1, p2⟩, hp, he⟩ := h
        simp only [Prod.mk.injEq] at he
        rw [← he.1]
        intro hmem
        rcases List.mem_cons.mp hmem with heq | hmem'
        · exact hc heq.symm
        · exact ih p1 p2 hp hmem'

theorem imageAfter_no_rb (s ws pay rest : List Char)
    (h : imageAfter s = some (ws, pay, rest)) : ']' ∉ ws ∧ ']' ∉ pay := by
  simp only [imageAfter, Option.map_eq_some'] at h
  obtain ⟨⟨p1, p2⟩, hp, he⟩ := h
  simp only [Prod.mk.injEq] at he
  obtain ⟨e1, e2, e3⟩ := he
  subst e1; subst e2; subst e3
  refine ⟨?_, scanToBracket_no_rb _ _ _ hp⟩
  intro hmem
  have hws := List.mem_takeWhile_imp hmem
  exact absurd hws (by decide)

theorem imageSplit_no_rb :
    ∀ s pre ws pay rest, imageSplit s = some (pre, ws, pay, rest) →
      ']' ∉ ws ∧ ']' ∉ pay := by
  intro s
  induction s with
  | nil => intro pre ws pay rest h; simp [imageSplit] at h
  | cons c cs ih =>
    intro pre ws pay rest h
    by_cases hp : imageOpen.isPrefixOf (c :: cs)
    · cases him : imageAfter ((c :: cs).drop imageOpen.length) with
      | some q =>
        obtain ⟨ws0, pay0, rest0⟩ := q
        simp only [imageSplit, hp, if_true, him, Option.some.injEq, Prod.mk.injEq] at h
        obtain ⟨e1, e2, e3, e4⟩ := h
        subst e1; subst e2; subst e3; subst e4
        exact imageAfter_no_rb _ _ _ _ him
      | none =>
        simp only [imageSplit, hp, if_true, him, Option.map_eq_some'] at h
        obtain ⟨⟨q1, q2, q3, q4⟩, hq, he⟩ := h
        simp only [Prod.mk.injEq] at he
        obtain ⟨e1, e2, e3, e4⟩ := he
        subst e1; subst e2; subst e3; subst e4
        exact ih q1 q2 q3 q4 hq
    · have hp' : imageOpen.isPrefixOf (c :: cs) = false := by
        cases hb : imageOpen.isPrefixOf (c :: cs)
        · rfl
        · exact absurd hb hp
      simp only [imageSplit, hp', Bool.false_eq_true, if_false, Option.map_eq_some'] at h
      obtain ⟨⟨q1, q2, q3, q4⟩, hq, he⟩ := h
      simp only [Prod.mk.injEq] at he
      obtain ⟨e1, e2, e3, e4⟩ := he
      subst e1; subst e2; subst e3; subst e4
      exact ih q1 q2 q3 q4 hq

theorem stripImage_keeps_marker (s u v w : List Char)
    (h : s = u ++ correctTag ++ v ++ correctTag ++ w) :
    containsB correctTag (stripImage s) = true := by
  cases him : imageSplit s with
  | none =>
    rw [stripImage, him]
    exact Iff.mpr (containsB_infix_iff _ _)
      ⟨u, v ++ correctTag ++ w, by rw [h]; simp [List.append_assoc]⟩
  | some q =>
    obtain ⟨pre, ws, pay, rest⟩ := q
    have hs2 := imageSplit_eq s pre ws pay rest him
    have hnr := imageSplit_no_rb s pre ws pay rest him
    have hstrip : stripImage s = pre ++ rest := by rw [stripImage, him]
    rw [hstrip]
    apply Iff.mpr (containsB_infix_iff _ _)
    have hsb_norb : ']' ∉ imageOpen ++ ws ++ pay := by
      intro hmem
      rcases List.mem_append.mp hmem with hmem01 | hmemp
      · rcases List.mem_append.mp hmem01 with hmem0 | hmemw
        · exact absurd hmem0 (by decide)
        · exact hnr.1 hmemw
      · exact hnr.2 hmemp
    have hs3 : s = pre ++ (imageOpen ++ ws ++ pay) ++ ']' :: rest := by
      rw [hs2]; simp [List.append_assoc]
    have hClen : correctTag.length = 9 := by decide
    have hio : imageOpen.length = 7 := by decide
    have hsblen : (imageOpen ++ ws ++ pay).length = 7 + ws.length + pay.length := by
      simp only [List.length_append, hio]
    have hlen : pre.length + (7 + ws.length + pay.length) + 1 + rest.length
        = u.length + 9 + v.length + 9 + w.length := by
      have h1 := congrArg List.length hs3
      have h2 := congrArg List.length h
      simp only [List.length_append, List.length_cons, hClen, hio] at h1 h2
      omega
    by_cases hc1 : u.length + 9 ≤ pre.length
    · have hpre1 : (u ++ correctTag) <+: s :=
        ⟨v ++ correctTag ++ w, by rw [h]; simp [List.append_assoc]⟩
      have hpre2 : pre <+: s :=
        ⟨(imageOpen ++ ws ++ pay) ++ ']' :: rest, by rw [hs3]; simp [List.append_assoc]⟩
      have hup : (u ++ correctTag) <+: pre :=
        List.prefix_of_prefix_length_le hpre1 hpre2
          (by simp only [List.length_append, hClen]; omega)
      obtain ⟨t, ht⟩ := hup
      exact ⟨u, t ++ rest, by rw [← ht]; simp [List.append_assoc]⟩
    · by_cases hc2 : pre.length + (7 + ws.length + pay.length) + 1
          ≤ u.length + 9 + v.length
      · have hsuf1 : (correctTag ++ w) <:+ s :=
          ⟨u ++ correctTag ++ v, by rw [h]; simp [List.append_assoc]⟩
        have hsuf2 : rest <:+ s :=
          ⟨pre ++ (imageOpen ++ ws ++ pay) ++ [']'], by rw [hs3]; simp [List.append_assoc]⟩
        have hcw : (correctTag ++ w) <:+ rest :=
          List.suffix_of_suffix_length_le hsuf1 hsuf2
            (by simp only [List.length_append, hClen]; omega)
        obtain ⟨t, ht⟩ := hcw
        exact ⟨pre ++ t, w, by rw [← ht]; simp [List.append_assoc]⟩
      · exfalso
        push_neg at hc1 hc2
        have hCsplit : correctTag = "[CORRECT".toList ++ [']'] := by decide
        have hCbl : ("[CORRECT".toList).length = 8 := by decide
        have hX : s = (u ++ "[CORRECT".toList) ++ ']' :: (v ++ correctTag ++ w) := by
          rw [h, hCsplit]; simp [List.append_assoc]
        have hP1 : pre.length ≤ (u ++ "[CORRECT".toList).length := by
          simp only [List.length_append, hCbl]
          omega
        have hd1 : s.drop pre.length
            = ((u ++ "[CORRECT".toList).drop pre.length) ++ ']' :: (v ++ correctTag ++ w) := by
          rw [hX]
          exact List.drop_append_of_le_length hP1
        have hd2 : s.drop pre.length = (imageOpen ++ ws ++ pay) ++ ']' :: rest := by
          rw [hs3,
            show pre ++ (imageOpen ++ ws ++ pay) ++ ']' :: rest
              = pre ++ ((imageOpen ++ ws ++ pay) ++ ']' :: rest) by simp [List.append_assoc]]
          exact List.drop_left pre _
        have hdroplen : ((u ++ "[CORRECT".toList).drop pre.length).length
            = u.length + 8 - pre.length := by
          rw [List.length_drop]
          simp [hCbl]
        have hmlt : u.length + 8 - pre.length < (imageOpen ++ ws ++ pay).length := by
          rw [hsblen]
          omega
        have htake : ((imageOpen ++ ws ++ pay) ++ ']' :: rest).take (u.length + 8 - pre.length + 1)
            = (((u ++ "[CORRECT".toList).drop pre.length) ++ ']' :: (v ++ correctTag ++ w)).take
                (u.length + 8 - pre.length + 1) := by
          rw [← hd2, hd1]
        have hlefttake : ((imageOpen ++ ws ++ pay) ++ ']' :: rest).take (u.length + 8 - pre.length + 1)
            = (imageOpen ++ ws ++ pay).take (u.length + 8 - pre.length + 1) := by
          rw [List.take_append_eq_append_take]
          have hz : u.length + 8 - pre.length + 1 - (imageOpen ++ ws ++ pay).length = 0 := by
            rw [hsblen]
            omega
          rw [hz]
          simp
        have hrighttake :
            (((u ++ "[CORRECT".toList).drop pre.length) ++ ']' :: (v ++ correctTag ++ w)).take
                (u.length + 8 - pre.length + 1)
            = ((u ++ "[CORRECT".toList).drop pre.length) ++ [']'] := by
          rw [List.take_append_eq_append_take]
          rw [List.take_of_length_le (by rw [hdroplen]; omega), hdroplen]
          have hone : u.length + 8 - pre.length + 1 - (u.length + 8 - pre.length) = 1 := by
            omega
          rw [hone]
          rfl
        have hin : ']' ∈ imageOpen ++ ws ++ pay := by
          apply List.take_subset (u.length + 8 - pre.length + 1)
          rw [hlefttake.symm.trans (htake.trans hrighttake)]
          simp
        exact hsb_norb hin

theorem segStep_fullText (st : TurnState) (chunk : List Char) :
    (segStep st chunk).fullText = st.fullText := by
  rw [segStep]
  cases hf : feedSeg st.buffer chunk with
  | mk o rest =>
    cases o with
    | some seg =>
      dsimp only
      by_cases he : (ttsClean seg).isEmpty
      · rw [if_pos he]
      · rw [if_neg he]
    | none => rfl

theorem stepTurn_fullText (st : TurnState) (chunk : List Char) :
    (stepTurn st chunk).fullText = st.fullText ++ chunk := by
  rw [stepTurn, segStep_fullText]
  rfl

theorem stepTurn_correctFound (st : TurnState) (chunk : List Char) :
    (stepTurn st chunk).isCorrectFound
      = (st.isCorrectFound || containsB correctTag (stripImage (st.fullText ++ chunk))) := by
  rw [stepTurn, (segStep_image _ _).2.2]
  rfl

theorem foldl_correct_of_last :
    ∀ (chunks : List (List Char)) (st : TurnState), chunks ≠ [] →
      containsB correctTag (stripImage ((chunks.foldl stepTurn st).fullText)) = true →
      (chunks.foldl stepTurn st).isCorrectFound = true := by
  intro chunks
  induction chunks with
  | nil => intro st hne; exact absurd rfl hne
  | cons c cs ih =>
    intro st hne hb
    rw [List.foldl_cons] at hb ⊢
    cases cs with
    | nil =>
      rw [List.foldl_nil] at hb ⊢
      rw [stepTurn_fullText] at hb
      rw [stepTurn_correctFound, hb, Bool.or_true]
    | cons c2 cs2 =>
      exact ih (stepTurn st c) (by simp) hb

/-- Claim C5: each directive type fires its side effect at most once per
turn — over any sequence of increments at most one image-generation
request is launched, and the caller's celebration fires at most once per
turn — and the correctness outcome does fire: whenever the turn's
accumulated text contains the `[CORRECT]` marker twice (in particular
split across increments), the turn returns the single correctness value
`true` and the caller fires exactly one celebration. -/
theorem c5_directives_once (chunks : List (List Char)) :
    ((runTurn chunks).imageRequests).length ≤ 1 ∧
    (∀ alreadyShown : Bool,
      celebrations (runTurn chunks).isCorrectFound alreadyShown ≤ 1) ∧
    (∀ u v w, joinL chunks = u ++ correctTag ++ v ++ correctTag ++ w →
      (runTurn chunks).isCorrectFound = true ∧
      celebrations (runTurn chunks).isCorrectFound false = 1) := by
  have h := foldl_stepTurn_image chunks initTurn (fun _ => rfl) (by simp [initTurn])
  refine ⟨?_, ?_, ?_⟩
  · rw [runTurn, (flushTTS_fields _).1]
    exact h.2
  · intro b
    rw [celebrations]
    by_cases hc : ((runTurn chunks).isCorrectFound && !b) = true
    · rw [if_pos hc]
    · rw [if_neg hc]
      omega
  · intro u v w hdec
    have hne : chunks ≠ [] := by
      intro hnil
      rw [hnil] at hdec
      have hlen0 := congrArg List.length hdec
      simp [joinL, List.length_append,
        show correctTag.length = 9 from by decide] at hlen0
      omega
    have hcb : containsB correctTag (stripImage (joinL chunks)) = true :=
      stripImage_keeps_marker (joinL chunks) u v w hdec
    have hft : (runTurnSteps chunks).fullText = joinL chunks := (runTurnSteps_join chunks).2
    have hcorr : (runTurnSteps chunks).isCorrectFound = true := by
      apply foldl_correct_of_last chunks initTurn hne
      rw [show (chunks.foldl stepTurn initTurn) = runTurnSteps chunks from rfl, hft]
      exact hcb
    have hrun : (runTurn chunks).isCorrectFound = true := by
      rw [runTurn, (flushTTS_fields _).2.1, hcorr]
    refine ⟨hrun, ?_⟩
    rw [celebrations, hrun]
    rfl

/-- Witness for C5: a turn whose accumulated text contains `[CORRECT]`
twice, split across two increments, returns `true` and fires exactly one
celebration. -/
theorem c5_directives_once_witness :
    (runTurn c5wChunks).isCorrectFound = true ∧
    celebrations (runTurn c5wChunks).isCorrectFound false = 1 :=
  (c5_directives_once c5wChunks).2.2 "ab".toList "cd".toList "ef".toList (by decide)

/-! ## Claim C1 -/

theorem scheduledUnits_nil (cur : ℚ) : scheduledUnits cur [] = [] := rfl

theorem scheduledUnits_cons (cur : ℚ) (e : TurnEvent) (es : List TurnEvent) :
    scheduledUnits cur (e :: es)
      = ((stepCursor cur e).2).toList ++ scheduledUnits (stepCursor cur e).1 es := rfl

theorem noInterrupt_chain :
    ∀ es, noInterruptEv es = true → ∀ cur : ℚ,
      List.Chain' (fun u v : ℚ × ℚ => u.1 + u.2 ≤ v.1) (scheduledUnits cur es) ∧
      ∀ u ∈ (scheduledUnits cur es).head?, cur ≤ u.1 := by
  intro es
  induction es with
  | nil =>
    intro _ cur
    refine ⟨List.chain'_nil, ?_⟩
    intro u hu
    simp [scheduledUnits_nil] at hu
  | cons e es ih =>
    intro h cur
    cases e with
    | taskStart intr now =>
      cases intr with
      | true =>
        exfalso
        simp [noInterruptEv, List.all_cons] at h
      | false =>
        have hh2 : noInterruptEv es = true := by
          simpa [noInterruptEv, List.all_cons] using h
        rw [scheduledUnits_cons]
        have hstep : stepCursor cur (.taskStart false now)
            = (if cur < now then now else cur, none) := by
          rw [stepCursor]
          simp
        rw [hstep]
        have hcle : cur ≤ if cur < now then now else cur := by
          by_cases hlt : cur < now
          · rw [if_pos hlt]; exact le_of_lt hlt
          · rw [if_neg hlt]
        have hi := ih hh2 (if cur < now then now else cur)
        refine ⟨by simpa using hi.1, ?_⟩
        intro u hu
        simp only [Option.toList_none, List.nil_append] at hu
        exact le_trans hcle (hi.2 u hu)
    | chunk now dur =>
      have hh2 : noInterruptEv es = true := by
        simpa [noInterruptEv, List.all_cons] using h
      rw [scheduledUnits_cons]
      have hstep : stepCursor cur (.chunk now dur)
          = (max cur now + dur, some (max cur now, dur)) := rfl
      rw [hstep]
      simp only [Option.toList_some, List.singleton_append]
      have hi := ih hh2 (max cur now + dur)
      constructor
      · rw [List.chain'_cons']
        refine ⟨?_, hi.1⟩
        intro y hy
        exact hi.2 y hy
      · intro u hu
        simp only [List.head?_cons, Option.mem_def, Option.some.injEq] at hu
        rw [← hu]
        exact le_max_left cur now

theorem okTurn_chain :
    ∀ es, okTurn es = true → ∀ cur : ℚ,
      List.Chain' (fun u v : ℚ × ℚ => u.1 + u.2 ≤ v.1) (scheduledUnits cur es) := by
  intro es
  induction es with
  | nil => intro _ cur; exact List.chain'_nil
  | cons e es ih =>
    intro h cur
    cases e with
    | taskStart intr now =>
      rw [scheduledUnits_cons]
      have h2 : okTurn es = true := h
      simpa using ih h2 (stepCursor cur (.taskStart intr now)).1
    | chunk now dur =>
      have h2 : noInterruptEv es = true := h
      rw [scheduledUnits_cons]
      have hstep : stepCursor cur (.chunk now dur)
          = (max cur now + dur, some (max cur now, dur)) := rfl
      rw [hstep]
      simp only [Option.toList_some, List.singleton_append]
      rw [List.chain'_cons']
      have hi := noInterrupt_chain es h2 (max cur now + dur)
      exact ⟨fun y hy => hi.2 y hy, hi.1⟩

theorem getD_eq_get {α : Type} :
    ∀ (l : List α) (d : α) (i : ℕ) (h : i < l.length), l.getD i d = l.get ⟨i, h⟩ := by
  intro l
  induction l with
  | nil => intro d i h; simp at h
  | cons a t ih =>
    intro d i h
    cases i with
    | zero => rfl
    | succ n => exact ih d n (by simpa using h)

/-- Claim C1: for every single uninterrupted turn (any interrupting task
head precedes every chunk, and no `stopAudio` occurs), the scheduled audio
units have contiguous start times: `unit[i+1].start ≥ unit[i].start +
unit[i].duration`, because each chunk starts at `max cursor now` and the
cursor then advances by exactly the chunk's duration. -/
theorem c1_contiguous (cur : ℚ) (es : List TurnEvent) (hok : okTurn es = true) :
    ∀ i, i + 1 < (scheduledUnits cur es).length →
      ((scheduledUnits cur es).getD i (0, 0)).1 + ((scheduledUnits cur es).getD i (0, 0)).2
        ≤ ((scheduledUnits cur es).getD (i + 1) (0, 0)).1 := by
  intro i hi
  have hch := okTurn_chain es hok cur
  have hg := List.chain'_iff_get.mp hch i (by omega)
  rw [getD_eq_get _ _ i (by omega), getD_eq_get _ _ (i + 1) (by omega)]
  exact hg

/-- Witness for C1 on a concrete event trace: an interrupting task head,
then two chunks scheduled out of gapless cursor order. -/
theorem c1_contiguous_witness :
    ((scheduledUnits 0 evC1).getD 0 (0, 0)).1 + ((scheduledUnits 0 evC1).getD 0 (0, 0)).2
      ≤ ((scheduledUnits 0 evC1).getD 1 (0, 0)).1 :=
  c1_contiguous 0 evC1 (by decide) 0 (by decide)

/-! ## Claim C2 -/

theorem runTaskGo_checks (myId : ℕ) (latest : ℕ → ℕ) :
    ∀ (chunks : List Bool) (k : ℕ) (first : Bool),
      (∀ c ∈ (runTaskGo myId latest chunks k first).unitChecks, latest c = myId) ∧
      (∀ c, (runTaskGo myId latest chunks k first).onStartAt = some c → latest c = myId) := by
  intro chunks
  induction chunks with
  | nil =>
    intro k first
    refine ⟨?_, ?_⟩
    · intro c hc; simp [runTaskGo] at hc
    · intro c hc; simp [runTaskGo] at hc
  | cons hasAudio rest ih =>
    intro k first
    rw [runTaskGo]
    by_cases h0 : latest k ≠ myId
    · rw [if_pos h0]
      refine ⟨?_, ?_⟩
      · intro c hc; simp at hc
      · intro c hc; simp at hc
    · rw [if_neg h0]
      cases hasAudio with
      | false =>
        simpa using ih (k + 1) first
      | true =>
        rw [if_pos rfl]
        by_cases h1 : latest (k + 1) ≠ myId
        · rw [if_pos h1]
          refine ⟨?_, ?_⟩
          · intro c hc; simp at hc
          · intro c hc; simp at hc
        · rw [if_neg h1]
          have hk1 : latest (k + 1) = myId := not_not.mp h1
          dsimp only
          refine ⟨?_, ?_⟩
          · intro c hc
            rcases List.mem_cons.mp hc with rfl | hc'
            · exact hk1
            · exact (ih (k + 2) false).1 c hc'
          · intro c hc
            cases first with
            | true =>
              simp only [if_pos trivial, Option.some.injEq] at hc
              rw [← hc]
              exact hk1
            | false =>
              simp only [Bool.false_eq_true, if_false] at hc
              exact (ih (k + 2) false).2 c hc

/-- Claim C2 (amended): every externally visible effect of a `playTTS`
task (scheduling an audio unit, calling `onSpeakingStart`) is committed
only at a checkpoint where the epoch still equals the task's captured
`myId`; since the epoch only grows, a bump strictly before a checkpoint
forbids every effect at or after it, and a bump before the task's first
checkpoint guarantees the task produces no unit and never calls
`onSpeakingStart` at all. -/
theorem c2_amended (myId : ℕ) (latest : ℕ → ℕ) (chunks : List Bool) :
    (∀ c ∈ (runTask myId latest chunks).unitChecks, latest c = myId) ∧
    (∀ c, (runTask myId latest chunks).onStartAt = some c → latest c = myId) ∧
    (Monotone latest → ∀ j, myId < latest j →
      (∀ c ∈ (runTask myId latest chunks).unitChecks, c < j) ∧
      (∀ c, (runTask myId latest chunks).onStartAt = some c → c < j)) ∧
    (latest 0 ≠ myId → runTask myId latest chunks = { unitChecks := [], onStartAt := none }) := by
  have hgo := runTaskGo_checks myId latest chunks 1 true
  have hrun : ∀ c ∈ (runTask myId latest chunks).unitChecks, latest c = myId := by
    rw [runTask]
    by_cases h0 : latest 0 ≠ myId
    · rw [if_pos h0]; intro c hc; simp at hc
    · rw [if_neg h0]; exact hgo.1
  have hrun2 : ∀ c, (runTask myId latest chunks).onStartAt = some c → latest c = myId := by
    rw [runTask]
    by_cases h0 : latest 0 ≠ myId
    · rw [if_pos h0]; intro c hc; simp at hc
    · rw [if_neg h0]; exact hgo.2
  refine ⟨hrun, hrun2, ?_, ?_⟩
  · intro hmono j hj
    refine ⟨?_, ?_⟩
    · intro c hc
      by_contra hge
      have hjc : j ≤ c := by omega
      have := hmono hjc
      have hcm := hrun c hc
      omega
    · intro c hc
      by_contra hge
      have hjc : j ≤ c := by omega
      have := hmono hjc
      have hcm := hrun2 c hc
      omega
  · intro h0
    rw [runTask, if_pos h0]

/-- Witness for the amended C2: with the epoch never bumped all effects
pass their checks, and with the epoch bumped before the task starts no
effect occurs. -/
theorem c2_amended_witness :
    (∀ c ∈ (runTask 0 (fun _ => 0) [true]).unitChecks, (fun _ => 0) c = 0) ∧
    runTask 0 (fun _ => 1) [true] = { unitChecks := [], onStartAt := none } :=
  ⟨(c2_amended 0 (fun _ => 0) [true]).1,
    (c2_amended 0 (fun _ => 1) [true]).2.2.2 (by decide)⟩

/-- Claim C2 as stated is false: `bumpAt3` bumps the epoch from 0 to 1 at
checkpoint 3, i.e. while the task (captured epoch 0) is awaiting its
second chunk — the task is still in flight, the bump happens during it —
yet the task has already called `onSpeakingStart` (at checkpoint 2) and
has already produced a scheduled audio unit. -/
theorem c2_counterexample :
    (runTask 0 bumpAt3 [true, true]).onStartAt = some 2 ∧
    (runTask 0 bumpAt3 [true, true]).unitChecks = [2] ∧
    bumpAt3 0 = 0 ∧ bumpAt3 2 = 0 ∧ bumpAt3 3 = 1 ∧ Monotone bumpAt3 := by
  refine ⟨by decide, by decide, by decide, by decide, by decide, ?_⟩
  intro a b hab
  rw [bumpAt3, bumpAt3]
  by_cases ha : 3 ≤ a
  · rw [if_pos ha, if_pos (le_trans ha hab)]
  · by_cases hb : 3 ≤ b
    · rw [if_neg ha, if_pos hb]
      omega
    · rw [if_neg ha, if_neg hb]

/-! ## Claims C6 and C7 -/

theorem applySvc_inv (s : ServiceState) (op : SvcOp)
    (h : s.ctx = false → s.cursor = 0) :
    (applySvc s op).ctx = false → (applySvc s op).cursor = 0 := by
  cases op with
  | stop =>
    intro hctx
    have hcs : s.ctx = false := hctx
    show (if s.ctx then 0 else s.cursor) = 0
    rw [hcs, if_neg Bool.false_ne_true]
    exact h hcs
  | beginTask intr now =>
    intro hctx
    have hb : (true : Bool) = false := hctx
    simp at hb
  | schedChunk now dur =>
    cases hcs : s.ctx with
    | true =>
      rw [applySvc, if_pos hcs]
      intro hctx
      exact absurd (hcs ▸ hctx) (by decide)
    | false =>
      rw [applySvc, if_neg (by rw [hcs]; exact Bool.false_ne_true)]
      exact h
  | endSource u => exact h
  | enqueue => exact h

theorem foldl_applySvc_inv :
    ∀ (ops : List SvcOp) (s : ServiceState), (s.ctx = false → s.cursor = 0) →
      ((ops.foldl applySvc s).ctx = false → (ops.foldl applySvc s).cursor = 0) := by
  intro ops
  induction ops with
  | nil => intro s h; exact h
  | cons op rest ih =>
    intro s h
    rw [List.foldl_cons]
    exact ih (applySvc s op) (applySvc_inv s op h)

theorem reachSvc_inv (ops : List SvcOp) :
    (reachSvc ops).ctx = false → (reachSvc ops).cursor = 0 :=
  foldl_applySvc_inv ops initSvc (fun _ => rfl)

/-- Claim C6: after any sequence of audio-service operations — including
mid-scheduling, with any number of queued tasks and live sources —
`stopAudio` leaves the live source set empty, the scheduling lane reset to
an empty chain, and the playback cursor at zero; calling it again changes
none of these fields (idempotence). -/
theorem c6_interrupt_clears (ops : List SvcOp) :
    (stopAudio (reachSvc ops)).sources = [] ∧
    (stopAudio (reachSvc ops)).queueLen = 0 ∧
    (stopAudio (reachSvc ops)).cursor = 0 ∧
    (stopAudio (stopAudio (reachSvc ops))).sources = (stopAudio (reachSvc ops)).sources ∧
    (stopAudio (stopAudio (reachSvc ops))).queueLen = (stopAudio (reachSvc ops)).queueLen ∧
    (stopAudio (stopAudio (reachSvc ops))).cursor = (stopAudio (reachSvc ops)).cursor := by
  have hc0 : (stopAudio (reachSvc ops)).cursor = 0 := by
    show (if (reachSvc ops).ctx then 0 else (reachSvc ops).cursor) = 0
    cases hcs : (reachSvc ops).ctx with
    | true => rw [if_pos rfl]
    | false =>
      rw [if_neg Bool.false_ne_true]
      exact reachSvc_inv ops hcs
  refine ⟨rfl, rfl, hc0, rfl, rfl, ?_⟩
  show (if (stopAudio (reachSvc ops)).ctx then 0 else (stopAudio (reachSvc ops)).cursor)
      = (stopAudio (reachSvc ops)).cursor
  rw [hc0]
  cases hcs : (stopAudio (reachSvc ops)).ctx with
  | true => rw [if_pos rfl]
  | false => rw [if_neg Bool.false_ne_true]

/-- Claim C7 as stated is false: `stopAudio` does bump the TTS epoch
(`latestTTSId++` is its first statement), so it does not leave the epoch
counter unchanged. -/
theorem c7_counterexample : ¬ (stopAudio initSvc).epoch = initSvc.epoch := by decide

/-- Claim C7 (amended): `stopAudio` increments the TTS epoch by exactly
one itself (its callers additionally bump the stream-processing epoch
separately); all other state it touches is limited to the scheduling lane,
the live source set, and the playback cursor — in particular the
audio-context field is untouched. -/
theorem c7_amended (s : ServiceState) :
    (stopAudio s).epoch = s.epoch + 1 ∧
    (stopAudio s).ctx = s.ctx ∧
    (stopAudio s).queueLen = 0 ∧
    (stopAudio s).sources = [] ∧
    (stopAudio s).cursor = (if s.ctx then 0 else s.cursor) :=
  ⟨rfl, rfl, rfl, rfl, rfl⟩

/-! ## Claim C8 -/

/-- Claim C8: when the stream is exhausted and every TTS scheduling
promise has settled, and the turn's epoch is still current, the processor
schedules the speaking-off transition after exactly
`max 0 ((endTime - now) * 1000) + 200` milliseconds (the time remaining on
the playback cursor plus a fixed 200 ms slack, never less than 200 ms);
with a stale epoch nothing is scheduled; and the timeout callback clears
the speaking flag only when the epoch is still current when it fires. -/
theorem c8_speaking_off (myId curId : ℕ) (endTime now : ℚ) (speaking : Bool) :
    (myId = curId →
      scheduleSpeakingOff myId curId endTime now
        = some (max 0 ((endTime - now) * 1000) + 200)) ∧
    (myId ≠ curId → scheduleSpeakingOff myId curId endTime now = none) ∧
    (∀ d, scheduleSpeakingOff myId curId endTime now = some d → 200 ≤ d) ∧
    speakingAfterTimeout myId myId speaking = false ∧
    (myId ≠ curId → speakingAfterTimeout myId curId speaking = speaking) := by
  refine ⟨?_, ?_, ?_, ?_, ?_⟩
  · intro h
    rw [scheduleSpeakingOff, if_pos h, turnEndDelay]
  · intro h
    rw [scheduleSpeakingOff, if_neg h]
  · intro d hd
    rw [scheduleSpeakingOff] at hd
    by_cases h : myId = curId
    · rw [if_pos h] at hd
      simp only [Option.some.injEq] at hd
      rw [← hd, turnEndDelay]
      have hmax : (0 : ℚ) ≤ max 0 ((endTime - now) * 1000) := le_max_left 0 _
      linarith
    · rw [if_neg h] at hd
      simp at hd
  · rw [speakingAfterTimeout, if_pos rfl]
  · intro h
    rw [speakingAfterTimeout, if_neg h]

/-- Witness for C8 at concrete values. -/
theorem c8_speaking_off_witness :
    scheduleSpeakingOff 1 1 5 3 = some (max 0 ((5 - 3) * 1000) + 200) ∧
    scheduleSpeakingOff 1 2 5 3 = none ∧
    speakingAfterTimeout 1 2 true = true :=
  ⟨(c8_speaking_off 1 1 5 3 true).1 rfl,
   (c8_speaking_off 1 2 5 3 true).2.1 (by decide),
   (c8_speaking_off 1 2 5 3 true).2.2.2.2 (by decide)⟩

/-! ## Claim C10 -/

theorem toInt16_bounds (lo hi : Fin 256) :
    -32768 ≤ toInt16 lo hi ∧ toInt16 lo hi < 32768 := by
  have hlo : (lo : ℤ) < 256 := by exact_mod_cast lo.isLt
  have hhi : (hi : ℤ) < 256 := by exact_mod_cast hi.isLt
  have hlo0 : (0 : ℤ) ≤ (lo : ℤ) := by exact_mod_cast Nat.zero_le _
  have hhi0 : (0 : ℤ) ≤ (hi : ℤ) := by exact_mod_cast Nat.zero_le _
  rw [toInt16]
  by_cases h : (lo : ℤ) + 256 * (hi : ℤ) < 32768
  · rw [if_pos h]
    constructor <;> omega
  · rw [if_neg h]
    constructor <;> omega

theorem pairUp_bounds_aux :
    ∀ (n : ℕ) (data : List (Fin 256)), data.length ≤ n →
      ∀ z ∈ pairUp data, -32768 ≤ z ∧ z < 32768 := by
  intro n
  induction n with
  | zero =>
    intro data hlen z hz
    cases data with
    | nil => simp [pairUp] at hz
    | cons a t => simp at hlen
  | succ n ih =>
    intro data hlen z hz
    cases data with
    | nil => simp [pairUp] at hz
    | cons lo tail =>
      cases tail with
      | nil => simp [pairUp] at hz
      | cons hi rest =>
        have hred : pairUp (lo :: hi :: rest) = toInt16 lo hi :: pairUp rest := rfl
        rw [hred] at hz
        cases List.mem_cons.mp hz with
        | inl hzeq =>
          rw [hzeq]
          exact toInt16_bounds lo hi
        | inr hz' =>
          refine ih rest ?_ z hz'
          simp only [List.length_cons] at hlen
          omega

theorem pairUp_bounds (data : List (Fin 256)) :
    ∀ z ∈ pairUp data, -32768 ≤ z ∧ z < 32768 :=
  pairUp_bounds_aux data.length data le_rfl

theorem getD_int_bounds (l : List ℤ) (hl : ∀ z ∈ l, -32768 ≤ z ∧ z < 32768) (n : ℕ) :
    -32768 ≤ l.getD n 0 ∧ l.getD n 0 < 32768 := by
  by_cases h : n < l.length
  · rw [getD_eq_get l 0 n h]
    exact hl _ (l.get_mem n h)
  · have hz : l.getD n 0 = 0 := by
      rw [List.getD_eq_getElem?_getD, List.getElem?_eq_none (by omega)]
      rfl
    rw [hz]
    constructor <;> norm_num

/-- Claim C10: `decodeAudioData` interprets the byte buffer as 16-bit
signed PCM and writes each channel sample as the integer divided by
32768.0, so every produced sample lies in the half-open interval
`[-1, 1)`. -/
theorem c10_sample_range (data : List (Fin 256)) (nc : ℕ) (ch : List ℚ) (s : ℚ)
    (hch : ch ∈ decodeAudioData data nc) (hs : s ∈ ch) : -1 ≤ s ∧ s < 1 := by
  simp only [decodeAudioData, List.mem_map] at hch
  obtain ⟨chIdx, _, hcheq⟩ := hch
  rw [← hcheq] at hs
  simp only [List.mem_map] at hs
  obtain ⟨i, _, hseq⟩ := hs
  rw [← hseq]
  have hb := getD_int_bounds (pairUp data) (pairUp_bounds data) (i * nc + chIdx)
  constructor
  · rw [le_div_iff₀ (by norm_num : (0 : ℚ) < 32768)]
    have hcast : ((-32768 : ℤ) : ℚ) ≤ (((pairUp data).getD (i * nc + chIdx) 0 : ℤ) : ℚ) := by
      exact_mod_cast hb.1
    push_cast at hcast
    linarith
  · rw [div_lt_one (by norm_num : (0 : ℚ) < 32768)]
    have hcast : (((pairUp data).getD (i * nc + chIdx) 0 : ℤ) : ℚ) < ((32768 : ℤ) : ℚ) := by
      exact_mod_cast hb.2
    push_cast at hcast
    linarith

/-- Witness for C10: the byte pair `0x00 0x80` decodes to the most
negative sample, exactly -1. -/
theorem c10_sample_range_witness :
    ([-1] : List ℚ) ∈ decodeAudioData [0, 128] 1 ∧ ((-1 : ℚ) ≤ -1 ∧ (-1 : ℚ) < 1) := by
  have heq : decodeAudioData [0, 128] 1 = [[-1]] := by
    have h128 : ((128 : Fin 256) : ℤ) = 128 := rfl
    have h0 : ((0 : Fin 256) : ℤ) = 0 := rfl
    norm_num [decodeAudioData, pairUp, toInt16, h128, h0, List.range_succ]
  have hmem : ([-1] : List ℚ) ∈ decodeAudioData [0, 128] 1 := by
    rw [heq]
    exact List.mem_singleton.mpr rfl
  exact ⟨hmem,
    c10_sample_range [0, 128] 1 [-1] (-1) hmem (List.mem_singleton.mpr rfl)⟩

end BabyGames
